import Mathlib

/-!
Verification of FileMate's in-memory file-system node tree
(src/filemate/file_system_node_tree.py) and its tree-synchronization engine
(src/filemate/packer.py), shallowly embedded in Lean.

Trees are bigtree-style nodes: a name, optional size and kind attributes, and
an ordered list of children.  Paths are modelled after pathlib: resolving a
path yields the absolute component decomposition whose first component is the
anchor "/".
-/

/-- Kind tag of a mirrored filesystem entry: file or directory. -/
inductive NKind where
| file
| dir
deriving DecidableEq, Repr

/-- Embeds the bigtree node as created by FileSystemNodeTree.create_node: a
name plus optional size and type attributes, and the ordered list of
children.  Nodes produced by dict_to_tree carry no size/type attributes,
hence the Option types. -/
inductive TreeNode where
| mk (name : String) (size : Option Nat) (kind : Option NKind) (children : List TreeNode)
deriving Repr

/-- Name of a tree node. -/
@[simp]
def TreeNode.name : TreeNode → String
| .mk n _ _ _ => n

/-- Size attribute of a tree node. -/
@[simp]
def TreeNode.size : TreeNode → Option Nat
| .mk _ s _ _ => s

/-- Type attribute of a tree node. -/
@[simp]
def TreeNode.kind : TreeNode → Option NKind
| .mk _ _ k _ => k

/-- Ordered children of a tree node. -/
@[simp]
def TreeNode.children : TreeNode → List TreeNode
| .mk _ _ _ c => c

/-- Modelled from the spec: the external FileSystemNode collaborator
(filemate/file_system_node.py and filemate/directory.py are not under src/).
Per spec section 6 it exposes a name, a size, a kind tag, a hidden flag and an
ordered one-level enumeration of children. -/
inductive FsNode where
| mk (name : String) (size : Nat) (kind : NKind) (hidden : Bool) (children : List FsNode)
deriving Repr

/-- Name of a filesystem entity. -/
@[simp]
def FsNode.name : FsNode → String
| .mk n _ _ _ _ => n

/-- Size of a filesystem entity. -/
@[simp]
def FsNode.size : FsNode → Nat
| .mk _ s _ _ _ => s

/-- Kind of a filesystem entity. -/
@[simp]
def FsNode.kind : FsNode → NKind
| .mk _ _ k _ _ => k

/-- Hidden flag of a filesystem entity. -/
@[simp]
def FsNode.hidden : FsNode → Bool
| .mk _ _ _ h _ => h

/-- One-level ordered enumeration of a filesystem entity's children. -/
@[simp]
def FsNode.children : FsNode → List FsNode
| .mk _ _ _ _ c => c

/-- Embeds node.iter(recursive=False, hidden=False): the one-level,
non-hidden, ordered child enumeration. -/
def FsNode.iterNonHidden (t : FsNode) : List FsNode :=
 t.children.filter (fun c => !c.hidden)

/-- A pathlib path: an absolute flag and the component list (already
normalized: no "." or ".." components, symlinks out of scope). -/
structure FsPath where
 absolute : Bool
 comps : List String
deriving DecidableEq, Repr

/-- Embeds Path(path).resolve().parts: resolving makes the path absolute, so
the resulting part list always starts with the anchor "/"; a relative path is
resolved against the current working directory components. -/
def resolvedParts (cwd : List String) (p : FsPath) : List String :=
 if p.absolute then "/" :: p.comps else "/" :: (cwd ++ p.comps)

/-- Errors raised by the embedded operations, mirroring the ValueError /
FileNotFoundError exceptions of the source. -/
inductive Err where
| pathNotFound (parts : List String)
| parentPathNotFound (parts : List String)
| noSavedTree
| importFailed
deriving DecidableEq, Repr

/-- Embeds FileSystemNodeTree.create_node: builds a single TreeNode from a
filesystem entity, copying name, size and type; the entity's own children are
not copied. -/
def create_node (v : FsNode) : TreeNode :=
 .mk v.name (some v.size) (some v.kind) []

/-- Embeds the child selection next((child for child in children if
child.name == part), None). -/
def findChild (cs : List TreeNode) (part : String) : Option TreeNode :=
 cs.find? (fun c => c.name = part)

/-- Embeds the walking loop of search_node_by_path: starting at the current
node, each part selects the first child whose name equals it; returns None at
the first part with no matching child. -/
def walkParts : TreeNode → List String → Option TreeNode
| t, [] => some t
| t, part :: rest =>
  match findChild t.children part with
  | none => none
  | some c => walkParts c rest

/-- Embeds FileSystemNodeTree.search_node_by_path: normalize the path to its
resolved parts, then walk from the root. -/
def search_node_by_path (root : TreeNode) (cwd : List String) (p : FsPath) : Option TreeNode :=
 walkParts root (resolvedParts cwd p)

mutual

/-- Embeds the _find_by_name helper of search_node_by_name: pre-order search,
testing the node itself first, then its children in order. -/
def findByName : TreeNode → String → Option TreeNode
| .mk n s k cs, nm =>
  if n = nm then some (.mk n s k cs) else findByNameList cs nm

/-- Pre-order first-match search over a forest, left to right. -/
def findByNameList : List TreeNode → String → Option TreeNode
| [], _ => none
| c :: cs, nm =>
  match findByName c nm with
  | some r => some r
  | none => findByNameList cs nm

end

mutual

/-- Pre-order listing of a tree's nodes (node first, then children in order),
used to characterize search_node_by_name. -/
def preorder : TreeNode → List TreeNode
| .mk n s k cs => .mk n s k cs :: preorderList cs

/-- Pre-order listing of a forest. -/
def preorderList : List TreeNode → List TreeNode
| [] => []
| c :: cs => preorder c ++ preorderList cs

end

/-- Appending a child: bigtree's parent assignment appends the new node to
the end of the parent's children. -/
def attachChild (t : TreeNode) (c : TreeNode) : TreeNode :=
 match t with
 | .mk n s k cs => .mk n s k (cs ++ [c])

mutual

/-- Functional form of the in-place mutation at the node found by the path
walk: follows the first-matching child for every part; applies the update at
the final node; None when some part has no matching child (the search of
add_node failed). -/
def updateAtParts : TreeNode → List String → (TreeNode → TreeNode) → Option TreeNode
| t, [], f => some (f t)
| .mk n s k cs, part :: rest, f =>
  match updateFirstChild cs part rest f with
  | none => none
  | some cs2 => some (.mk n s k cs2)
termination_by t parts f => (parts.length, 0)

/-- Updates the first child whose name matches the part, committing to it the
way next(...) does: a later sibling with the same name is never tried. -/
def updateFirstChild : List TreeNode → String → List String → (TreeNode → TreeNode) → Option (List TreeNode)
| [], _, _, _ => none
| c :: cs, part, rest, f =>
  if c.name = part then
    match updateAtParts c rest f with
    | none => none
    | some c2 => some (c2 :: cs)
  else
    match updateFirstChild cs part rest f with
    | none => none
    | some cs2 => some (c :: cs2)
termination_by cs part rest f => (rest.length, cs.length + 1)

end

mutual

/-- Functional form of remove_node's detach: walks the resolved parts with
first-match child selection; the node found by the full walk is removed from
its parent's children; None when the walk fails.  An empty part list walks
to the root itself, whose parent link is already null, so detaching is a
structural no-op (unreachable in practice: resolved parts are never empty). -/
def removeAtParts : TreeNode → List String → Option TreeNode
| t, [] => some t
| .mk n s k cs, part :: rest =>
  match removeInChildren cs part rest with
  | none => none
  | some cs2 => some (.mk n s k cs2)
termination_by t parts => (parts.length, 0)

/-- Walks into the first child whose name matches the part; when no further
parts remain that child is the found node and is dropped from the list. -/
def removeInChildren : List TreeNode → String → List String → Option (List TreeNode)
| [], _, _ => none
| c :: cs, part, rest =>
  if c.name = part then
    match rest with
    | [] => some cs
    | r :: rs =>
      match removeAtParts c (r :: rs) with
      | none => none
      | some c2 => some (c2 :: cs)
  else
    match removeInChildren cs part rest with
    | none => none
    | some cs2 => some (c :: cs2)
termination_by cs part rest => (rest.length, cs.length + 1)

end

/-- Embeds FileSystemNodeTree.add_node: resolve the parent path, search it by
the part walk, raise ValueError when absent, otherwise attach the new node
(built by create_node) as the last child of the found parent. -/
def store_add_node (root : TreeNode) (cwd : List String) (parent_path : FsPath) (child : FsNode) : Except Err TreeNode :=
 match updateAtParts root (resolvedParts cwd parent_path) (fun p => attachChild p (create_node child)) with
 | none => .error (.parentPathNotFound (resolvedParts cwd parent_path))
 | some t => .ok t

/-- Embeds FileSystemNodeTree.remove_node: resolve the path, search it by the
part walk, raise ValueError when absent, otherwise detach the found node from
its parent. -/
def store_remove_node (root : TreeNode) (cwd : List String) (path : FsPath) : Except Err TreeNode :=
 match removeAtParts root (resolvedParts cwd path) with
 | none => .error (.pathNotFound (resolvedParts cwd path))
 | some t => .ok t

mutual

/-- Pre-order list of the path keys produced by bigtree's tree_to_dict for a
tree: each node contributes the component list of its path_name (the chain of
names from the root down to it).  The node itself comes first, then the keys
of its children's subtrees in order. -/
def nodePaths : TreeNode → List (List String)
| .mk n _ _ cs => [n] :: (nodePathsList cs).map (fun p => n :: p)

/-- Path keys of a forest, left to right. -/
def nodePathsList : List TreeNode → List (List String)
| [] => []
| c :: cs => nodePaths c ++ nodePathsList cs

end

/-- Python dict insertion: an existing key keeps its position and gets the
new value, a fresh key is appended. -/
def dictInsert (d : List (List String × String)) (kv : List String × String) : List (List String × String) :=
 if d.any (fun e => e.1 = kv.1) then d.map (fun e => if e.1 = kv.1 then (e.1, kv.2) else e)
 else d ++ [kv]

/-- Embeds bigtree.tree_to_dict with its default arguments, as called by
FileSystemNodeTree.tree_to_dict: a pre-order dict keyed by each node's
path_name whose value records only the node's name (size and type attributes
are not exported by default).  Keys are modelled as component lists; the
value is the single exported name attribute. -/
def tree_to_dict (t : TreeNode) : List (List String × String) :=
 ((nodePaths t).map (fun p => (p, p.getLastD ""))).foldl dictInsert []

/-- Setting the exported name attribute on a node (bigtree set_attrs with the
name key). -/
def setNameAttr (t : TreeNode) (v : String) : TreeNode :=
 match t with
 | .mk _ s k cs => .mk v s k cs

mutual

/-- Embeds the walk of bigtree's add_path_to_tree below the root: each
remaining component descends into the first child with that name, creating a
fresh attribute-less child (appended) when none exists; the final node
receives the exported name attribute. -/
def addPathGo : TreeNode → List String → String → TreeNode
| t, [], v => setNameAttr t v
| .mk n s k cs, c :: rest, v =>
  if cs.any (fun ch => ch.name = c) then .mk n s k (addPathList cs c rest v)
  else .mk n s k (cs ++ [addPathGo (.mk c none none []) rest v])
termination_by t parts v => (parts.length, 0)

/-- Descends into the first child whose name matches the component. -/
def addPathList : List TreeNode → String → List String → String → List TreeNode
| [], _, _, _ => []
| ch :: chs, c, rest, v =>
  if ch.name = c then addPathGo ch rest v :: chs
  else ch :: addPathList chs c rest v
termination_by chs c rest v => (rest.length, chs.length + 1)

end

/-- Embeds bigtree's add_path_to_tree entry: the first component of the path
must equal the root's name (otherwise the library raises), the rest of the
path is walked below the root. -/
def addPath (t : TreeNode) (key : List String) (v : String) : Option TreeNode :=
 match key with
 | [] => none
 | c :: rest => if c = t.name then some (addPathGo t rest v) else none

/-- Embeds bigtree.dict_to_tree as called by FileSystemNodeTree.dict_to_tree:
the root is named after the first component of the first key, then every
(path, attributes) row is added into the tree via add_path_to_tree.  Raises
(None) on an empty dict or on a row whose path does not start at the root. -/
def dict_to_tree (d : List (List String × String)) : Option TreeNode :=
 match d with
 | [] => none
 | (k, _) :: _ =>
   match k with
   | [] => none
   | rootName :: _ => d.foldlM (fun t kv => addPath t kv.1 kv.2) (TreeNode.mk rootName none none [])

/-- The round trip importer(export(tree)): the exported dict is written to
and re-read from JSON unchanged (str keys, str values, insertion order
kept), so the importer is dict_to_tree of tree_to_dict. -/
def roundTrip (t : TreeNode) : Option TreeNode :=
 dict_to_tree (tree_to_dict t)

mutual

/-- A tree with the same names and child structure but all size/type
attributes absent: what the round trip through the serialized form rebuilds. -/
def strip : TreeNode → TreeNode
| .mk n _ _ cs => .mk n none none (stripList cs)

/-- Attribute stripping over a forest. -/
def stripList : List TreeNode → List TreeNode
| [] => []
| c :: cs => strip c :: stripList cs

end

/-- Nodup test on names. -/
def nodupBy : List String → Bool
| [] => true
| x :: xs => (!xs.contains x) && nodupBy xs

mutual

/-- Every node of the tree has pairwise distinct children names: the
condition under which pre-order path keys are pairwise distinct. -/
def sibNodup : TreeNode → Bool
| .mk _ _ _ cs => nodupBy (cs.map TreeNode.name) && sibNodupList cs

/-- Sibling-nodup test over a forest. -/
def sibNodupList : List TreeNode → Bool
| [] => true
| c :: cs => sibNodup c && sibNodupList cs

end

/-- A persisted save file in the nodetree folder: its modification time and
its JSON content (the serialized dict). -/
structure SavedFile where
 mtime : Int
 data : List (List String × String)

/-- The nodetree folder state: for each root name, the optional saved file
nodetree folder slash name dot json. -/
structure FsFiles where
 files : String → Option SavedFile

/-- Embeds FileSystemNodeTree.check_saved_tree: with a max_age the saved file
must exist and its age (now minus mtime) must be strictly below max_age; with
max_age None only existence is checked. -/
def check_saved_tree (fs : FsFiles) (now : Int) (node_name : String) (max_age : Option Int) : Bool :=
 match max_age with
 | some m =>
   match fs.files node_name with
   | some f => decide (now - f.mtime < m)
   | none => false
 | none => (fs.files node_name).isSome

/-- Embeds FileSystemNodeTree.restore: raises FileNotFoundError when
check_saved_tree (existence only) fails, otherwise imports the saved JSON
via dict_to_tree.  The function only reads: the returned folder state is the
input one. -/
def restore (fs : FsFiles) (node_name : String) : Except Err TreeNode × FsFiles :=
 if check_saved_tree fs 0 node_name none then
   match fs.files node_name with
   | some f =>
     match dict_to_tree f.data with
     | some t => (.ok t, fs)
     | none => (.error .importFailed, fs)
   | none => (.error .importFailed, fs)
 else (.error .noSavedTree, fs)

/-- A destination tree node located by search_node_by_name, together with the
absolute filesystem path components of the entry it mirrors.  Modelled from
the spec: tree nodes mirror filesystem entries, and the packer reads a path
and a parent from the nodes the search returns; the parent's path components
are the node's with the last dropped. -/
structure DLoc where
 comps : List String
 node : TreeNode

mutual

/-- Embeds the destination store's search_node_by_name as used by the packer:
pre-order first-match over the whole destination tree from its root, also
returning the located node's mirrored path components. -/
def findByNameLoc : TreeNode → List String → String → Option DLoc
| .mk n s k cs, comps, nm =>
  if n = nm then some ⟨comps, .mk n s k cs⟩ else findByNameLocList cs comps nm

/-- Located pre-order search over a forest; a child's components extend its
parent's by its own name. -/
def findByNameLocList : List TreeNode → List String → String → Option DLoc
| [], _, _ => none
| c :: cs, comps, nm =>
  match findByNameLoc c (comps ++ [c.name]) nm with
  | some r => some r
  | none => findByNameLocList cs comps nm

end

/-- State threaded through a pack run: the source store's tree and the
destination store's tree.  Every mutation the engine performs goes through
the destination store (self.destination.add_node / remove_node in the
source), so only dest is ever rebuilt. -/
structure PackerSt where
 srcTree : TreeNode
 dest : TreeNode

/-- Immutable engine configuration: the override and merge policy flags, the
destination root's mirrored path components (used by the located search) and
the working directory for path resolution. -/
structure PackerEnv where
 override : Bool
 merge : Bool
 destComps : List String
 cwd : List String

/-- Embeds Packer.add_node: self.destination.add_node(parent.path, node),
with parent.path the located parent's absolute components. -/
def packerAddNode (cw : List String) (node : FsNode) (parentComps : List String) (s : PackerSt) : Except Err PackerSt :=
 match store_add_node s.dest cw ⟨true, parentComps⟩ node with
 | .error e => .error e
 | .ok d => .ok { s with dest := d }

/-- Embeds Packer.remove_node: self.destination.remove_node(node.path). -/
def packerRemoveNode (cw : List String) (comps : List String) (s : PackerSt) : Except Err PackerSt :=
 match store_remove_node s.dest cw ⟨true, comps⟩ with
 | .error e => .error e
 | .ok d => .ok { s with dest := d }

/-- Embeds Packer.replace_directory: remove the destination directory from
the destination tree, then add the source node under the destination node's
former parent.  A raised error aborts before the add. -/
def replace_directory (cw : List String) (src : FsNode) (d : DLoc) (s : PackerSt) : Except Err PackerSt :=
 match packerRemoveNode cw d.comps s with
 | .error e => .error e
 | .ok s2 => packerAddNode cw src d.comps.dropLast s2

/-- Embeds Packer.replace_node: when both nodes are directories delegate to
replace_directory, otherwise add the source node under the destination
node's parent without removing anything. -/
def replace_node (cw : List String) (src : FsNode) (d : DLoc) (s : PackerSt) : Except Err PackerSt :=
 if src.kind = .dir then
   if d.node.kind = some .dir then replace_directory cw src d s
   else packerAddNode cw src d.comps.dropLast s
 else packerAddNode cw src d.comps.dropLast s

/-- Filtering a list never increases its sizeOf. -/
theorem sizeOf_filter_le {α : Type} [SizeOf α] (p : α → Bool) (l : List α) : sizeOf (l.filter p) ≤ sizeOf l := by
 induction l with
 | nil => simp [List.filter]
 | cons a l ih =>
   by_cases h : p a
   · simp [List.filter, h]
     omega
   · simp [List.filter, h]
     omega

/-- The children list of a filesystem entity is structurally smaller than the
entity. -/
theorem fsNode_children_sizeOf_lt (t : FsNode) : sizeOf t.children < sizeOf t := by
 cases t
 simp

mutual

/-- Embeds Packer.pack, the top-level dispatch: when no destination node is
supplied, look one up by name over the whole destination tree; with no match
do nothing; otherwise dispatch on the policy flags, override first, then
merge, then the default replace. -/
def pack (env : PackerEnv) (src : FsNode) (dstOpt : Option DLoc) (s : PackerSt) : Except Err PackerSt :=
 match dstOpt with
 | some d => pack_dispatch env src d s
 | none =>
   match findByNameLoc s.dest env.destComps src.name with
   | none => .ok s
   | some d => pack_dispatch env src d s
termination_by (sizeOf src, 4)

/-- The policy dispatch of Packer.pack once a destination node is at hand:
override first, then merge, then the default replace. -/
def pack_dispatch (env : PackerEnv) (src : FsNode) (d : DLoc) (s : PackerSt) : Except Err PackerSt :=
 if env.override then override_node env src d s
 else if env.merge then merge_node env src d s
 else replace_node env.cwd src d s
termination_by (sizeOf src, 3)

/-- Embeds Packer.override_node: both directories go to override_directory,
any other combination to replace_node. -/
def override_node (env : PackerEnv) (src : FsNode) (d : DLoc) (s : PackerSt) : Except Err PackerSt :=
 if src.kind = .dir then
   if d.node.kind = some .dir then override_directory env src d s
   else replace_node env.cwd src d s
 else replace_node env.cwd src d s
termination_by (sizeOf src, 2)

/-- Embeds Packer.override_directory: iterate the source directory's
one-level non-hidden children. -/
def override_directory (env : PackerEnv) (src : FsNode) (d : DLoc) (s : PackerSt) : Except Err PackerSt :=
 override_children env src.iterNonHidden d s
termination_by (sizeOf src, 1)
decreasing_by
 have h1 : sizeOf src.iterNonHidden ≤ sizeOf src.children := sizeOf_filter_le _ _
 have h2 := fsNode_children_sizeOf_lt src
 decreasing_tactic

/-- The loop body of override_directory: for each source child, search the
destination store by name (the whole destination tree, from its root); on a
match recurse through the top-level dispatch pack, otherwise add the child
under the destination directory.  A raised error aborts the loop. -/
def override_children (env : PackerEnv) : List FsNode → DLoc → PackerSt → Except Err PackerSt
| [], _, s => .ok s
| c :: cs, d, s =>
  match (match findByNameLoc s.dest env.destComps c.name with
         | some m => pack env c (some m) s
         | none => packerAddNode env.cwd c d.comps s) with
  | .error e => .error e
  | .ok s2 => override_children env cs d s2
termination_by cs d s => (sizeOf cs, 0)

/-- Embeds Packer.merge_node: both directories go to merge_directory, any
other combination to replace_node. -/
def merge_node (env : PackerEnv) (src : FsNode) (d : DLoc) (s : PackerSt) : Except Err PackerSt :=
 if src.kind = .dir then
   if d.node.kind = some .dir then merge_directory env src d s
   else replace_node env.cwd src d s
 else replace_node env.cwd src d s
termination_by (sizeOf src, 2)

/-- Embeds Packer.merge_directory: identical child enumeration to
override_directory. -/
def merge_directory (env : PackerEnv) (src : FsNode) (d : DLoc) (s : PackerSt) : Except Err PackerSt :=
 merge_children env src.iterNonHidden d s
termination_by (sizeOf src, 1)
decreasing_by
 have h1 : sizeOf src.iterNonHidden ≤ sizeOf src.children := sizeOf_filter_le _ _
 have h2 := fsNode_children_sizeOf_lt src
 decreasing_tactic

/-- The loop body of merge_directory: identical to override_children except
that a matched pair re-enters merge_node directly instead of the top-level
dispatch. -/
def merge_children (env : PackerEnv) : List FsNode → DLoc → PackerSt → Except Err PackerSt
| [], _, s => .ok s
| c :: cs, d, s =>
  match (match findByNameLoc s.dest env.destComps c.name with
         | some m => merge_node env c m s
         | none => packerAddNode env.cwd c d.comps s) with
  | .error e => .error e
  | .ok s2 => merge_children env cs d s2
termination_by cs d s => (sizeOf cs, 0)

end

/-- The iteration of pack_all over the source root's first-level children:
each child is looked up by name in the destination tree and packed against
the result.  A raised error aborts the remaining iterations. -/
def pack_all_aux (env : PackerEnv) : List FsNode → PackerSt → Except Err PackerSt
| [], s => .ok s
| c :: cs, s =>
  match pack env c (findByNameLoc s.dest env.destComps c.name) s with
  | .error e => .error e
  | .ok s2 => pack_all_aux env cs s2

/-- Embeds Packer.pack_all: iterate the source root's first-level children. -/
def pack_all (env : PackerEnv) (srcRoot : FsNode) (s : PackerSt) : Except Err PackerSt :=
 pack_all_aux env srcRoot.children s

/-- Concrete store tree used in witnesses: a root named root with one file
child named a, as built from a subtree root slash a. -/
def egStore : TreeNode :=
 .mk "root" none (some .dir) [.mk "a" (some 1) (some .file) []]

/-- No matching child means the child selection returns None. -/
theorem findChild_eq_none (cs : List TreeNode) (nm : String) (h : ∀ c ∈ cs, c.name ≠ nm) : findChild cs nm = none := by
 unfold findChild
 apply List.find?_eq_none.mpr
 intro c hc
 simpa using h c hc

/-- No child of the given name means the remove walk fails at once. -/
theorem removeInChildren_eq_none (cs : List TreeNode) (nm : String) (rest : List String)
  (h : ∀ c ∈ cs, c.name ≠ nm) : removeInChildren cs nm rest = none := by
 induction cs with
 | nil => simp [removeInChildren]
 | cons c cs ih =>
   have hc : c.name ≠ nm := h c (List.mem_cons_self c cs)
   have ht := ih (fun x hx => h x (List.mem_cons_of_mem c hx))
   rw [removeInChildren.eq_def]
   simp [if_neg hc, ht]
   intro h2
   exact absurd h2 hc

/-- No child of the given name means the update walk fails at once. -/
theorem updateFirstChild_eq_none (cs : List TreeNode) (nm : String) (rest : List String)
  (f : TreeNode → TreeNode) (h : ∀ c ∈ cs, c.name ≠ nm) : updateFirstChild cs nm rest f = none := by
 induction cs with
 | nil => simp [updateFirstChild]
 | cons c cs ih =>
   have hc : c.name ≠ nm := h c (List.mem_cons_self c cs)
   have ht := ih (fun x hx => h x (List.mem_cons_of_mem c hx))
   rw [updateFirstChild.eq_def]
   simp [if_neg hc, ht]
   intro h2
   exact absurd h2 hc

/-- C2 (code bug): the resolved part list always starts with the anchor "/",
and the walk matches every part, the anchor included, against children only:
whenever no child of the root is literally named "/" (names are basenames,
so never "/"), search_node_by_path returns None for every path — in
particular it never returns a node n when given the path of n. -/
theorem search_node_by_path_never_finds (t : TreeNode)
  (h : ∀ c ∈ t.children, c.name ≠ "/") (cwd : List String) (p : FsPath) :
  search_node_by_path t cwd p = none := by
 unfold search_node_by_path resolvedParts
 split
 all_goals rw [walkParts, findChild_eq_none t.children "/" h]

/-- Witness for C2: the store mirroring directory root with file a: searching
the path slash root slash a (the path of node a) returns None, not node a. -/
theorem search_node_by_path_never_finds_witness :
  search_node_by_path egStore [] ⟨true, ["root", "a"]⟩ = none :=
 search_node_by_path_never_finds egStore (by decide) [] ⟨true, ["root", "a"]⟩

/-- Whenever no child of the root is named "/", remove_node raises not-found
for every path: the resolved parts start with the anchor. -/
theorem store_remove_node_fails (t : TreeNode)
  (h : ∀ c ∈ t.children, c.name ≠ "/") (cwd : List String) (p : FsPath) :
  store_remove_node t cwd p = .error (.pathNotFound (resolvedParts cwd p)) := by
 obtain ⟨n, s, k, cs⟩ := t
 have hcs : ∀ c ∈ cs, c.name ≠ "/" := h
 unfold store_remove_node
 have : resolvedParts cwd p = "/" :: (resolvedParts cwd p).tail := by
   unfold resolvedParts
   split <;> simp
 rw [this, removeAtParts, removeInChildren_eq_none cs "/" _ hcs]

/-- Whenever no child of the root is named "/", add_node raises not-found
for every parent path: the resolved parts start with the anchor. -/
theorem store_add_node_fails (t : TreeNode)
  (h : ∀ c ∈ t.children, c.name ≠ "/") (cwd : List String) (q : FsPath) (child : FsNode) :
  store_add_node t cwd q child = .error (.parentPathNotFound (resolvedParts cwd q)) := by
 obtain ⟨n, s, k, cs⟩ := t
 have hcs : ∀ c ∈ cs, c.name ≠ "/" := h
 unfold store_add_node
 have : resolvedParts cwd q = "/" :: (resolvedParts cwd q).tail := by
   unfold resolvedParts
   split <;> simp
 rw [this, updateAtParts, updateFirstChild_eq_none cs "/" _ _ hcs]

/-- C6 (code bug): both halves of the detach-then-reattach sequence raise for
every input, because both resolve their path argument and the resulting part
list starts with the anchor "/", which matches no child: remove_node then
add_node can never restore anything. -/
theorem remove_then_add_always_fails (t : TreeNode)
  (h : ∀ c ∈ t.children, c.name ≠ "/") (cwd : List String) (p q : FsPath) (child : FsNode) :
  store_remove_node t cwd p = .error (.pathNotFound (resolvedParts cwd p)) ∧
  store_add_node t cwd q child = .error (.parentPathNotFound (resolvedParts cwd q)) :=
 ⟨store_remove_node_fails t h cwd p, store_add_node_fails t h cwd q child⟩

/-- Witness for C6: on the concrete store, removing the path of node a and
re-adding under the root's path both raise not-found. -/
theorem remove_then_add_always_fails_witness :
  store_remove_node egStore [] ⟨true, ["root", "a"]⟩ = .error (.pathNotFound ["/", "root", "a"]) ∧
  store_add_node egStore [] ⟨true, ["root"]⟩ (.mk "a" 1 .file false []) = .error (.parentPathNotFound ["/", "root"]) :=
 remove_then_add_always_fails egStore (by decide) [] ⟨true, ["root", "a"]⟩ ⟨true, ["root"]⟩ (.mk "a" 1 .file false [])

/-- The children list of a tree node is structurally smaller than the node. -/
theorem treeNode_children_sizeOf_lt (t : TreeNode) : sizeOf t.children < sizeOf t := by
 cases t
 simp

/-- A successful part walk only ever moves into subtrees: the result is never
structurally larger than the start node. -/
theorem walkParts_sizeOf_le : ∀ (rest : List String) (c r : TreeNode), walkParts c rest = some r → sizeOf r ≤ sizeOf c := by
 intro rest
 induction rest with
 | nil =>
   intro c r h
   rw [walkParts] at h
   cases h
   exact le_rfl
 | cons part rs ih =>
   intro c r h
   rw [walkParts] at h
   cases hf : findChild c.children part with
   | none => rw [hf] at h; cases h
   | some ch =>
     rw [hf] at h
     have h1 : sizeOf r ≤ sizeOf ch := ih ch r h
     have h2 : ch ∈ c.children := List.mem_of_find?_eq_some hf
     have h3 : sizeOf ch < sizeOf c.children := List.sizeOf_lt_of_mem h2
     have h4 := treeNode_children_sizeOf_lt c
     omega

/-- C10: the resolved part list is never empty, so the walk always descends
at least one level: search_node_by_path never returns the root node itself;
consequently a successful remove_node always detaches a proper descendant,
and the root node survives with its own name, size and kind (its parent link
stays null). -/
theorem search_never_root_and_root_survives (t : TreeNode) (cwd : List String) (p : FsPath) :
  search_node_by_path t cwd p ≠ some t ∧
  ∀ t2, store_remove_node t cwd p = .ok t2 → t2.name = t.name ∧ t2.size = t.size ∧ t2.kind = t.kind := by
 have hres : resolvedParts cwd p = "/" :: (resolvedParts cwd p).tail := by
   unfold resolvedParts
   split <;> simp
 constructor
 · intro heq
   unfold search_node_by_path at heq
   rw [hres, walkParts] at heq
   cases hf : findChild t.children "/" with
   | none => rw [hf] at heq; cases heq
   | some ch =>
     rw [hf] at heq
     have h1 : sizeOf t ≤ sizeOf ch := walkParts_sizeOf_le _ ch t heq
     have h2 : ch ∈ t.children := List.mem_of_find?_eq_some hf
     have h3 : sizeOf ch < sizeOf t.children := List.sizeOf_lt_of_mem h2
     have h4 := treeNode_children_sizeOf_lt t
     omega
 · intro t2 h
   unfold store_remove_node at h
   rw [hres] at h
   obtain ⟨n, s, k, cs⟩ := t
   rw [removeAtParts] at h
   cases hr : removeInChildren cs "/" (resolvedParts cwd p).tail with
   | none => rw [hr] at h; cases h
   | some cs2 =>
     rw [hr] at h
     cases h
     exact ⟨rfl, rfl, rfl⟩

/-- Tree used by the C10 witness: its root has a child literally named "/",
the only shape on which the path walk can succeed. -/
def slashStore : TreeNode :=
 .mk "r" none (some .dir) [.mk "/" none (some .dir) []]

/-- Witness for C10: on the slash store the root path resolves to the single
anchor part, remove_node succeeds, and the surviving root keeps its name,
size and kind; the search can never return the root itself. -/
theorem search_never_root_and_root_survives_witness :
  search_node_by_path slashStore [] ⟨true, []⟩ ≠ some slashStore ∧
  ((TreeNode.mk "r" none (some .dir) []).name = slashStore.name ∧
   (TreeNode.mk "r" none (some .dir) []).size = slashStore.size ∧
   (TreeNode.mk "r" none (some .dir) []).kind = slashStore.kind) :=
 ⟨(search_never_root_and_root_survives slashStore [] ⟨true, []⟩).1,
  (search_never_root_and_root_survives slashStore [] ⟨true, []⟩).2 (.mk "r" none (some .dir) [])
   (by simp [store_remove_node, resolvedParts, removeAtParts, removeInChildren, slashStore])⟩

/-- C7: with max_age None, check_saved_tree is existence of the save file; with
a max_age it is existence plus age strictly within the bound, so with
max_age 0 any save whose age exceeds zero is reported stale. -/
theorem check_saved_tree_age_gate (fs : FsFiles) (now : Int) (node_name : String) :
  (check_saved_tree fs now node_name none = true ↔ (fs.files node_name).isSome) ∧
  (∀ m : Int, check_saved_tree fs now node_name (some m) = true ↔
    ∃ f, fs.files node_name = some f ∧ now - f.mtime < m) ∧
  (∀ f, fs.files node_name = some f → 0 < now - f.mtime →
    check_saved_tree fs now node_name (some 0) = false) := by
 refine ⟨?_, ?_, ?_⟩
 · unfold check_saved_tree
   cases fs.files node_name <;> simp
 · intro m
   unfold check_saved_tree
   cases h : fs.files node_name <;> simp [h]
 · intro f hf hage
   unfold check_saved_tree
   rw [hf]
   simpa using by omega

/-- Saved-file table used by the C7 witness: a single save named r with
modification time zero. -/
def egFiles : FsFiles :=
 ⟨fun n => if n = "r" then some ⟨0, [(["r"], "r")]⟩ else none⟩

/-- Witness for C7: five seconds after the save, the age gate with max_age 0
reports the save as stale while the gate without max_age still accepts it. -/
theorem check_saved_tree_age_gate_witness :
  check_saved_tree egFiles 5 "r" (some 0) = false ∧ check_saved_tree egFiles 5 "r" none = true :=
 ⟨(check_saved_tree_age_gate egFiles 5 "r").2.2 ⟨0, [(["r"], "r")]⟩ rfl (by decide),
  ((check_saved_tree_age_gate egFiles 5 "r").1).mpr (by decide)⟩

/-- C8: restore raises the not-found error exactly when no save file exists
for the name (an existing but undecodable save raises a different error), and
restore only reads: the folder state it returns is the one it was given. -/
theorem restore_not_found_iff (fs : FsFiles) (node_name : String) :
  ((restore fs node_name).1 = .error .noSavedTree ↔ fs.files node_name = none) ∧
  (restore fs node_name).2 = fs := by
 unfold restore check_saved_tree
 cases h : fs.files node_name with
 | none => simp [h]
 | some f =>
   cases hd : dict_to_tree f.data <;> simp [h, hd]

/-- C3 (code bug): the replace action on a directory pair first calls
remove_node on the destination node's path; the resolved parts start with the
anchor "/", which matches no child of the destination root, so the removal
raises and the whole replace aborts: the destination node is never detached
and no node named after the source is ever attached. -/
theorem replace_directory_raises (cw : List String) (src : FsNode) (d : DLoc) (s : PackerSt)
  (h : ∀ c ∈ s.dest.children, c.name ≠ "/") :
  replace_directory cw src d s = .error (.pathNotFound ("/" :: d.comps)) := by
 unfold replace_directory packerRemoveNode
 have hrm := store_remove_node_fails s.dest h cw ⟨true, d.comps⟩
 rw [hrm]
 simp [resolvedParts]

/-- Destination tree for the packer witnesses: a root named droot with one
empty subdirectory d. -/
def egDest : TreeNode :=
 .mk "droot" none (some .dir) [.mk "d" none (some .dir) []]

/-- Located destination directory d used by the packer witnesses. -/
def egDLoc : DLoc :=
 ⟨["droot", "d"], .mk "d" none (some .dir) []⟩

/-- Packer state for the witnesses: some source store tree plus egDest. -/
def egSt : PackerSt :=
 ⟨egStore, egDest⟩

/-- Source directory with one visible file child, used by the packer
witnesses. -/
def egSrcDir : FsNode :=
 .mk "s" 0 .dir false [.mk "y" 5 .file false []]

/-- Witness for C3: replacing destination directory d by source directory s
raises not-found instead of detaching d and attaching a node named s. -/
theorem replace_directory_raises_witness :
  replace_directory [] egSrcDir egDLoc egSt = .error (.pathNotFound ["/", "droot", "d"]) :=
 replace_directory_raises [] egSrcDir egDLoc egSt (by decide)

/-- Both name searches are the pre-order first match: the located search and
the plain search agree with find? over the pre-order node listing, for every
tree and forest up to the given size. -/
theorem findByName_pre_order_aux : ∀ n : Nat,
  (∀ t : TreeNode, sizeOf t ≤ n → ∀ comps nm,
     (findByNameLoc t comps nm).map DLoc.node = (preorder t).find? (fun v => v.name = nm) ∧
     findByName t nm = (preorder t).find? (fun v => v.name = nm)) ∧
  (∀ cs : List TreeNode, sizeOf cs ≤ n → ∀ comps nm,
     (findByNameLocList cs comps nm).map DLoc.node = (preorderList cs).find? (fun v => v.name = nm) ∧
     findByNameList cs nm = (preorderList cs).find? (fun v => v.name = nm)) := by
 intro n
 induction n using Nat.strong_induction_on with
 | _ n ih =>
   constructor
   · intro t ht comps nm
     obtain ⟨m, s, k, cs⟩ := t
     have hlt : sizeOf cs < sizeOf (TreeNode.mk m s k cs) := by
       have := treeNode_children_sizeOf_lt (.mk m s k cs)
       simpa only [TreeNode.children] using this
     have hcs : sizeOf cs < n := by omega
     have ihcs := (ih (sizeOf cs) hcs).2 cs le_rfl
     by_cases hm : m = nm
     · subst hm
       rw [findByNameLoc, findByName, preorder]
       simp
     · rw [findByNameLoc, findByName, preorder]
       rw [if_neg hm, if_neg hm, List.find?_cons_of_neg _ (by simpa using hm)]
       exact ihcs comps nm
   · intro cs hcs comps nm
     cases cs with
     | nil =>
       rw [findByNameLocList, findByNameList, preorderList]
       simp
     | cons c rest =>
       have hszc : sizeOf c < sizeOf (c :: rest) := by
         simp only [List.cons.sizeOf_spec]
         omega
       have hszr : sizeOf rest < sizeOf (c :: rest) := by
         simp only [List.cons.sizeOf_spec]
         omega
       have hsc : sizeOf c < n := by omega
       have hsr : sizeOf rest < n := by omega
       have ihc := (ih (sizeOf c) hsc).1 c le_rfl
       have ihr := (ih (sizeOf rest) hsr).2 rest le_rfl
       have ihc1 := (ihc (comps ++ [c.name]) nm).1
       have ihc2 := (ihc comps nm).2
       have ihr1 := (ihr comps nm).1
       have ihr2 := (ihr comps nm).2
       refine ⟨?_, ?_⟩
       · rw [findByNameLocList, preorderList, List.find?_append, ← ihc1, ← ihr1]
         cases findByNameLoc c (comps ++ [c.name]) nm <;> simp
       · rw [findByNameList, preorderList, List.find?_append, ← ihc2, ← ihr2]
         cases findByName c nm <;> simp

/-- C5 amended: the matcher override_directory consults for every source
child (the call findByNameLoc on the destination store's root in
override_children) is the pre-order first name match over the entire
destination tree — not a lookup restricted to the children of the
destination directory being overridden; the same holds for the store's plain
search_node_by_name. -/
theorem override_match_is_global_pre_order (t : TreeNode) (comps : List String) (nm : String) :
  (findByNameLoc t comps nm).map DLoc.node = (preorder t).find? (fun v => v.name = nm) ∧
  findByName t nm = (preorder t).find? (fun v => v.name = nm) :=
 (findByName_pre_order_aux (sizeOf t)).1 t le_rfl comps nm

/-- Node x sitting under destination directory e, away from the directory d
being overridden. -/
def xNode : TreeNode :=
 .mk "x" (some 1) (some .file) []

/-- Destination tree for the C5 counterexample: root droot with an empty
directory d (the pair being overridden) and a directory e containing x. -/
def cexDest : TreeNode :=
 .mk "droot" none (some .dir) [.mk "d" none (some .dir) [], .mk "e" none (some .dir) [xNode]]

/-- Source directory s with a single visible child x for the C5
counterexample. -/
def cexSrc : FsNode :=
 .mk "s" 0 .dir false [.mk "x" 2 .file false []]

/-- Engine environment for the C5 counterexample: override policy. -/
def cexEnv : PackerEnv :=
 ⟨true, false, ["droot"], []⟩

/-- Packer state for the C5 counterexample. -/
def cexSt : PackerSt :=
 ⟨egStore, cexDest⟩

/-- C5 counterexample: overriding destination directory d (which has no
child named x) with source s whose child is x, the matched node the code
uses is the node x found under e — not a child of d — so the engine recurses
on that pair (failing while adding under e's parent) instead of attaching x
under d as the claim requires. -/
theorem override_match_counterexample :
  findByNameLoc cexDest ["droot"] "x" = some ⟨["droot", "e", "x"], xNode⟩ ∧
  xNode ∉ (TreeNode.mk "d" none (some .dir) []).children ∧
  override_directory cexEnv cexSrc ⟨["droot", "d"], .mk "d" none (some .dir) []⟩ cexSt =
    .error (.parentPathNotFound ["/", "droot", "e"]) := by
 refine ⟨?_, ?_, ?_⟩
 · simp [cexDest, xNode, findByNameLoc, findByNameLocList]
 · simp
 · simp [override_directory, override_children, pack, pack_dispatch, override_node, replace_node,
     packerAddNode, store_add_node, resolvedParts, updateAtParts, updateFirstChild,
     findByNameLoc, findByNameLocList, cexEnv, cexSrc, cexDest, cexSt, xNode,
     FsNode.iterNonHidden, replace_directory, packerRemoveNode, store_remove_node,
     removeAtParts, removeInChildren, create_node]

/-- Override and merge runs coincide on every input: the dedicated merge
recursion and the generic dispatch under the override flag unfold to the
same reconciliation, stated for all sources up to a size bound. -/
theorem policy_equiv_aux : ∀ n : Nat,
  (∀ src : FsNode, sizeOf src ≤ n → ∀ dc cw : List String,
     (∀ d s, override_directory ⟨true, false, dc, cw⟩ src d s = merge_directory ⟨false, true, dc, cw⟩ src d s) ∧
     (∀ d s, override_node ⟨true, false, dc, cw⟩ src d s = merge_node ⟨false, true, dc, cw⟩ src d s) ∧
     (∀ dOpt s, pack ⟨true, false, dc, cw⟩ src dOpt s = pack ⟨false, true, dc, cw⟩ src dOpt s)) ∧
  (∀ cs : List FsNode, sizeOf cs ≤ n → ∀ dc cw : List String, ∀ d s,
     override_children ⟨true, false, dc, cw⟩ cs d s = merge_children ⟨false, true, dc, cw⟩ cs d s) := by
 intro n
 induction n using Nat.strong_induction_on with
 | _ n ih =>
   constructor
   · intro src hsz dc cw
     have hflt : sizeOf src.iterNonHidden < n := by
       have h1 : sizeOf src.iterNonHidden ≤ sizeOf src.children := sizeOf_filter_le _ _
       have h2 := fsNode_children_sizeOf_lt src
       omega
     have hdir : ∀ d s, override_directory ⟨true, false, dc, cw⟩ src d s = merge_directory ⟨false, true, dc, cw⟩ src d s := by
       intro d s
       rw [override_directory, merge_directory]
       exact (ih (sizeOf src.iterNonHidden) hflt).2 src.iterNonHidden le_rfl dc cw d s
     have hnode : ∀ d s, override_node ⟨true, false, dc, cw⟩ src d s = merge_node ⟨false, true, dc, cw⟩ src d s := by
       intro d s
       rw [override_node, merge_node]
       by_cases h1 : src.kind = .dir
       · rw [if_pos h1, if_pos h1]
         by_cases h2 : d.node.kind = some .dir
         · rw [if_pos h2, if_pos h2]
           exact hdir d s
         · rw [if_neg h2, if_neg h2]
       · rw [if_neg h1, if_neg h1]
     have hdisp : ∀ d s, pack_dispatch ⟨true, false, dc, cw⟩ src d s = pack_dispatch ⟨false, true, dc, cw⟩ src d s := by
       intro d s
       rw [pack_dispatch, pack_dispatch]
       simpa using hnode d s
     refine ⟨hdir, hnode, ?_⟩
     intro dOpt s
     rw [pack.eq_def, pack.eq_def]
     cases dOpt with
     | some d => simpa using hdisp d s
     | none =>
       cases hf : findByNameLoc s.dest dc src.name with
       | none => simp [hf]
       | some d => simpa [hf] using hdisp d s
   · intro cs hsz dc cw d s
     cases cs with
     | nil => rw [override_children, merge_children]
     | cons c rest =>
       have hszc : sizeOf c < sizeOf (c :: rest) := by
         simp only [List.cons.sizeOf_spec]
         omega
       have hszr : sizeOf rest < sizeOf (c :: rest) := by
         simp only [List.cons.sizeOf_spec]
         omega
       have hc : sizeOf c < n := by omega
       have hr : sizeOf rest < n := by omega
       rw [override_children, merge_children]
       cases hm : findByNameLoc s.dest dc c.name with
       | some m =>
         have hpm : pack ⟨true, false, dc, cw⟩ c (some m) s = merge_node ⟨false, true, dc, cw⟩ c m s := by
           rw [pack.eq_def]
           show pack_dispatch ⟨true, false, dc, cw⟩ c m s = _
           rw [pack_dispatch]
           simpa using ((ih (sizeOf c) hc).1 c le_rfl dc cw).2.1 m s
         simp only [hm, hpm]
         cases merge_node ⟨false, true, dc, cw⟩ c m s with
         | error e => rfl
         | ok s2 => exact (ih (sizeOf rest) hr).2 rest le_rfl dc cw d s2
       | none =>
         simp only [hm]
         cases packerAddNode cw c d.comps s with
         | error e => rfl
         | ok s2 => exact (ih (sizeOf rest) hr).2 rest le_rfl dc cw d s2

/-- C4: for a directory pair, running the engine with the override policy
and running it with the merge policy produce identical outcomes on every
source/destination state: the same resulting destination tree, or the same
raised error. -/
theorem override_merge_equivalent (src : FsNode) (d : DLoc) (dc cw : List String) (s : PackerSt)
  (h1 : src.kind = .dir) (h2 : d.node.kind = some .dir) :
  pack ⟨true, false, dc, cw⟩ src (some d) s = pack ⟨false, true, dc, cw⟩ src (some d) s :=
 ((policy_equiv_aux (sizeOf src)).1 src le_rfl dc cw).2.2 (some d) s

/-- Witness for C4: a concrete directory pair on which both policy runs
return the same outcome. -/
theorem override_merge_equivalent_witness :
  pack ⟨true, false, ["droot"], []⟩ egSrcDir (some egDLoc) egSt =
    pack ⟨false, true, ["droot"], []⟩ egSrcDir (some egDLoc) egSt :=
 override_merge_equivalent egSrcDir egDLoc ["droot"] [] egSt rfl rfl

/-- A successful engine-level add only rebuilds the destination tree. -/
theorem packerAddNode_src (cw : List String) (node : FsNode) (pc : List String) (s s2 : PackerSt)
  (h : packerAddNode cw node pc s = .ok s2) : s2.srcTree = s.srcTree := by
 unfold packerAddNode at h
 cases hs : store_add_node s.dest cw ⟨true, pc⟩ node with
 | error e => rw [hs] at h; cases h
 | ok d => rw [hs] at h; cases h; rfl

/-- A successful engine-level remove only rebuilds the destination tree. -/
theorem packerRemoveNode_src (cw : List String) (pc : List String) (s s2 : PackerSt)
  (h : packerRemoveNode cw pc s = .ok s2) : s2.srcTree = s.srcTree := by
 unfold packerRemoveNode at h
 cases hs : store_remove_node s.dest cw ⟨true, pc⟩ with
 | error e => rw [hs] at h; cases h
 | ok d => rw [hs] at h; cases h; rfl

/-- A successful replace_directory only rebuilds the destination tree. -/
theorem replace_directory_src (cw : List String) (src : FsNode) (d : DLoc) (s s2 : PackerSt)
  (h : replace_directory cw src d s = .ok s2) : s2.srcTree = s.srcTree := by
 unfold replace_directory at h
 cases hr : packerRemoveNode cw d.comps s with
 | error e => rw [hr] at h; cases h
 | ok s1 =>
   rw [hr] at h
   have h1 := packerRemoveNode_src cw d.comps s s1 hr
   have h2 := packerAddNode_src cw src d.comps.dropLast s1 s2 h
   rw [h2, h1]

/-- A successful replace_node only rebuilds the destination tree. -/
theorem replace_node_src (cw : List String) (src : FsNode) (d : DLoc) (s s2 : PackerSt)
  (h : replace_node cw src d s = .ok s2) : s2.srcTree = s.srcTree := by
 unfold replace_node at h
 split at h
 · split at h
   · exact replace_directory_src cw src d s s2 h
   · exact packerAddNode_src cw src d.comps.dropLast s s2 h
 · exact packerAddNode_src cw src d.comps.dropLast s s2 h

/-- Every recursive engine action, on success, leaves the source store's
tree exactly as it was: all mutation goes through the destination store. -/
theorem pack_src_preserved_aux : ∀ n : Nat,
  (∀ src : FsNode, sizeOf src ≤ n → ∀ env d s s2,
     (override_directory env src d s = .ok s2 → s2.srcTree = s.srcTree) ∧
     (merge_directory env src d s = .ok s2 → s2.srcTree = s.srcTree) ∧
     (override_node env src d s = .ok s2 → s2.srcTree = s.srcTree) ∧
     (merge_node env src d s = .ok s2 → s2.srcTree = s.srcTree) ∧
     (pack_dispatch env src d s = .ok s2 → s2.srcTree = s.srcTree) ∧
     (∀ dOpt, pack env src dOpt s = .ok s2 → s2.srcTree = s.srcTree)) ∧
  (∀ cs : List FsNode, sizeOf cs ≤ n → ∀ env d s s2,
     (override_children env cs d s = .ok s2 → s2.srcTree = s.srcTree) ∧
     (merge_children env cs d s = .ok s2 → s2.srcTree = s.srcTree)) := by
 intro n
 induction n using Nat.strong_induction_on with
 | _ n ih =>
   constructor
   · intro src hsz env
     have hflt : sizeOf src.iterNonHidden < n := by
       have h1 : sizeOf src.iterNonHidden ≤ sizeOf src.children := sizeOf_filter_le _ _
       have h2 := fsNode_children_sizeOf_lt src
       omega
     have hkids := (ih (sizeOf src.iterNonHidden) hflt).2 src.iterNonHidden le_rfl
     have hdir : ∀ d s s2, override_directory env src d s = .ok s2 → s2.srcTree = s.srcTree := by
       intro d s s2
       rw [override_directory]
       exact (hkids env d s s2).1
     have hmdir : ∀ d s s2, merge_directory env src d s = .ok s2 → s2.srcTree = s.srcTree := by
       intro d s s2
       rw [merge_directory]
       exact (hkids env d s s2).2
     have hnode : ∀ d s s2, override_node env src d s = .ok s2 → s2.srcTree = s.srcTree := by
       intro d s s2
       rw [override_node]
       intro h
       split at h
       · split at h
         · exact hdir d s s2 h
         · exact replace_node_src env.cwd src d s s2 h
       · exact replace_node_src env.cwd src d s s2 h
     have hmnode : ∀ d s s2, merge_node env src d s = .ok s2 → s2.srcTree = s.srcTree := by
       intro d s s2
       rw [merge_node]
       intro h
       split at h
       · split at h
         · exact hmdir d s s2 h
         · exact replace_node_src env.cwd src d s s2 h
       · exact replace_node_src env.cwd src d s s2 h
     have hdisp : ∀ d s s2, pack_dispatch env src d s = .ok s2 → s2.srcTree = s.srcTree := by
       intro d s s2
       rw [pack_dispatch]
       intro h
       split at h
       · exact hnode d s s2 h
       · split at h
         · exact hmnode d s s2 h
         · exact replace_node_src env.cwd src d s s2 h
     intro d s s2
     refine ⟨hdir d s s2, hmdir d s s2, hnode d s s2, hmnode d s s2, hdisp d s s2, ?_⟩
     intro dOpt
     rw [pack.eq_def]
     cases dOpt with
     | some d2 => exact fun h => hdisp d2 s s2 h
     | none =>
       cases hf : findByNameLoc s.dest env.destComps src.name with
       | none =>
         intro h
         cases h
         rfl
       | some d2 => exact fun h => hdisp d2 s s2 h
   · intro cs hsz env d s s2
     cases cs with
     | nil =>
       constructor
       · rw [override_children]
         intro h
         cases h
         rfl
       · rw [merge_children]
         intro h
         cases h
         rfl
     | cons c rest =>
       have hszc : sizeOf c < sizeOf (c :: rest) := by
         simp only [List.cons.sizeOf_spec]
         omega
       have hszr : sizeOf rest < sizeOf (c :: rest) := by
         simp only [List.cons.sizeOf_spec]
         omega
       have hc : sizeOf c < n := by omega
       have hr : sizeOf rest < n := by omega
       constructor
       · rw [override_children]
         cases hm : findByNameLoc s.dest env.destComps c.name with
         | some m =>
           show (match pack env c (some m) s with
                 | Except.error e => Except.error e
                 | Except.ok s1 => override_children env rest d s1) = Except.ok s2 → s2.srcTree = s.srcTree
           cases hp : pack env c (some m) s with
           | error e => intro h; cases h
           | ok s1 =>
             intro h
             have h3 : override_children env rest d s1 = .ok s2 := h
             have e1 := ((ih (sizeOf c) hc).1 c le_rfl env m s s1).2.2.2.2.2 (some m) hp
             have e2 := ((ih (sizeOf rest) hr).2 rest le_rfl env d s1 s2).1 h3
             rw [e2, e1]
         | none =>
           show (match packerAddNode env.cwd c d.comps s with
                 | Except.error e => Except.error e
                 | Except.ok s1 => override_children env rest d s1) = Except.ok s2 → s2.srcTree = s.srcTree
           cases hp : packerAddNode env.cwd c d.comps s with
           | error e => intro h; cases h
           | ok s1 =>
             intro h
             have h3 : override_children env rest d s1 = .ok s2 := h
             have e1 := packerAddNode_src env.cwd c d.comps s s1 hp
             have e2 := ((ih (sizeOf rest) hr).2 rest le_rfl env d s1 s2).1 h3
             rw [e2, e1]
       · rw [merge_children]
         cases hm : findByNameLoc s.dest env.destComps c.name with
         | some m =>
           show (match merge_node env c m s with
                 | Except.error e => Except.error e
                 | Except.ok s1 => merge_children env rest d s1) = Except.ok s2 → s2.srcTree = s.srcTree
           cases hp : merge_node env c m s with
           | error e => intro h; cases h
           | ok s1 =>
             intro h
             have h3 : merge_children env rest d s1 = .ok s2 := h
             have e1 := ((ih (sizeOf c) hc).1 c le_rfl env m s s1).2.2.2.1 hp
             have e2 := ((ih (sizeOf rest) hr).2 rest le_rfl env d s1 s2).2 h3
             rw [e2, e1]
         | none =>
           show (match packerAddNode env.cwd c d.comps s with
                 | Except.error e => Except.error e
                 | Except.ok s1 => merge_children env rest d s1) = Except.ok s2 → s2.srcTree = s.srcTree
           cases hp : packerAddNode env.cwd c d.comps s with
           | error e => intro h; cases h
           | ok s1 =>
             intro h
             have h3 : merge_children env rest d s1 = .ok s2 := h
             have e1 := packerAddNode_src env.cwd c d.comps s s1 hp
             have e2 := ((ih (sizeOf rest) hr).2 rest le_rfl env d s1 s2).2 h3
             rw [e2, e1]

/-- A successful pack_all iteration leaves the source store's tree as it
was. -/
theorem pack_all_aux_src : ∀ (cs : List FsNode) (env : PackerEnv) (s s2 : PackerSt),
  pack_all_aux env cs s = .ok s2 → s2.srcTree = s.srcTree := by
 intro cs
 induction cs with
 | nil =>
   intro env s s2
   rw [pack_all_aux]
   intro h
   cases h
   rfl
 | cons c rest ih =>
   intro env s s2
   rw [pack_all_aux]
   cases hp : pack env c (findByNameLoc s.dest env.destComps c.name) s with
   | error e => intro h; cases h
   | ok s1 =>
     intro h
     have h3 : pack_all_aux env rest s1 = .ok s2 := h
     have e1 := ((pack_src_preserved_aux (sizeOf c)).1 c le_rfl env ⟨[], s.dest⟩ s s1).2.2.2.2.2 _ hp
     have e2 := ih env s1 s2 h3
     rw [e2, e1]

/-- C9: no engine entry point ever rebuilds the source store's tree: a
successful pack, pack_all, override, merge or replace returns a state whose
source tree is the input one — every add_node and remove_node the engine
performs targets the destination store. -/
theorem packer_source_frame (env : PackerEnv) (src : FsNode) (s s2 : PackerSt) :
  (∀ dstOpt, pack env src dstOpt s = .ok s2 → s2.srcTree = s.srcTree) ∧
  (∀ srcRoot : FsNode, pack_all env srcRoot s = .ok s2 → s2.srcTree = s.srcTree) ∧
  (∀ d, override_node env src d s = .ok s2 → s2.srcTree = s.srcTree) ∧
  (∀ d, merge_node env src d s = .ok s2 → s2.srcTree = s.srcTree) ∧
  (∀ cw d, replace_node cw src d s = .ok s2 → s2.srcTree = s.srcTree) := by
 have haux := (pack_src_preserved_aux (sizeOf src)).1 src le_rfl env
 refine ⟨?_, ?_, ?_, ?_, ?_⟩
 · intro dstOpt
   exact (haux ⟨[], s.dest⟩ s s2).2.2.2.2.2 dstOpt
 · intro srcRoot
   rw [pack_all]
   exact pack_all_aux_src srcRoot.children env s s2
 · intro d
   exact (haux d s s2).2.2.1
 · intro d
   exact (haux d s s2).2.2.2.1
 · intro cw d
   exact replace_node_src cw src d s s2

/-- Witness for C9: a pack invocation that succeeds (the source name matches
nothing in the destination, so the engine does nothing) and indeed leaves
the source tree untouched. -/
theorem packer_source_frame_witness : egSt.srcTree = egSt.srcTree :=
 (packer_source_frame ⟨true, false, ["droot"], []⟩ (.mk "zz" 0 .file false []) egSt egSt).1 none
  (by simp [pack, findByNameLoc, findByNameLocList, egSt, egDest])

/-- Every serialized path key is nonempty. -/
theorem nodePaths_ne_nil (t : TreeNode) : ∀ p ∈ nodePaths t, p ≠ [] := by
 obtain ⟨n, sz, kd, cs⟩ := t
 rw [nodePaths]
 intro p hp
 rcases List.mem_cons.mp hp with h | h
 · subst h
   simp
 · obtain ⟨q, _, rfl⟩ := List.mem_map.mp h
   simp

/-- Every path key of a tree starts with that tree's name. -/
theorem nodePaths_head (t : TreeNode) : ∀ p ∈ nodePaths t, p.head? = some t.name := by
 obtain ⟨n, sz, kd, cs⟩ := t
 rw [nodePaths]
 intro p hp
 rcases List.mem_cons.mp hp with h | h
 · subst h
   simp
 · obtain ⟨q, _, rfl⟩ := List.mem_map.mp h
   simp

/-- Every path key of a forest is nonempty. -/
theorem nodePathsList_ne_nil (cs : List TreeNode) : ∀ p ∈ nodePathsList cs, p ≠ [] := by
 induction cs with
 | nil => rw [nodePathsList]; intro p hp; cases hp
 | cons c rest ih =>
   rw [nodePathsList]
   intro p hp
   rcases List.mem_append.mp hp with h | h
   · exact nodePaths_ne_nil c p h
   · exact ih p h

/-- Every path key of a forest starts with the name of one of its trees. -/
theorem nodePathsList_head (cs : List TreeNode) : ∀ p ∈ nodePathsList cs, ∃ c ∈ cs, p.head? = some c.name := by
 induction cs with
 | nil => rw [nodePathsList]; intro p hp; cases hp
 | cons c rest ih =>
   rw [nodePathsList]
   intro p hp
   rcases List.mem_append.mp hp with h | h
   · exact ⟨c, List.mem_cons_self c rest, nodePaths_head c p h⟩
   · obtain ⟨c2, hc2, hh⟩ := ih p h
     exact ⟨c2, List.mem_cons_of_mem c hc2, hh⟩

/-- Unfolding of the boolean name-nodup test. -/
theorem nodupBy_cons (x : String) (xs : List String) :
  nodupBy (x :: xs) = true ↔ x ∉ xs ∧ nodupBy xs = true := by
 rw [nodupBy]
 simp

/-- With pairwise distinct sibling names, the pre-order path keys of a tree
are pairwise distinct (and likewise for a forest whose root names are
distinct). -/
theorem nodePaths_nodup_aux : ∀ n : Nat,
  (∀ t : TreeNode, sizeOf t ≤ n → sibNodup t = true → (nodePaths t).Nodup) ∧
  (∀ cs : List TreeNode, sizeOf cs ≤ n → sibNodupList cs = true →
    nodupBy (cs.map TreeNode.name) = true → (nodePathsList cs).Nodup) := by
 intro n
 induction n using Nat.strong_induction_on with
 | _ n ih =>
   constructor
   · intro t ht hs
     obtain ⟨m, sz, kd, cs⟩ := t
     have hlt : sizeOf cs < sizeOf (TreeNode.mk m sz kd cs) := by
       have := treeNode_children_sizeOf_lt (.mk m sz kd cs)
       simpa only [TreeNode.children] using this
     rw [sibNodup, Bool.and_eq_true] at hs
     obtain ⟨hs1, hs2⟩ := hs
     rw [nodePaths]
     apply List.Nodup.cons
     · intro hmem
       obtain ⟨q, hq, he⟩ := List.mem_map.mp hmem
       have : q = [] := by
         have := congrArg List.tail he
         simpa using this.symm
       exact nodePathsList_ne_nil cs q hq this
     · apply List.Nodup.map
       · intro a b hab
         exact (List.cons.injEq m a m b).mp hab |>.2
       · exact (ih (sizeOf cs) (by omega)).2 cs le_rfl hs2 hs1
   · intro cs hsz hs hn
     cases cs with
     | nil =>
       rw [nodePathsList]
       exact List.nodup_nil
     | cons c rest =>
       have hszc : sizeOf c < sizeOf (c :: rest) := by
         simp only [List.cons.sizeOf_spec]
         omega
       have hszr : sizeOf rest < sizeOf (c :: rest) := by
         simp only [List.cons.sizeOf_spec]
         omega
       rw [sibNodupList, Bool.and_eq_true] at hs
       obtain ⟨hs1, hs2⟩ := hs
       rw [List.map_cons] at hn
       obtain ⟨hn1, hn2⟩ := (nodupBy_cons _ _).mp hn
       rw [nodePathsList]
       apply List.Nodup.append
       · exact (ih (sizeOf c) (by omega)).1 c le_rfl hs1
       · exact (ih (sizeOf rest) (by omega)).2 rest le_rfl hs2 hn2
       · intro p hp hq
         have h1 := nodePaths_head c p hp
         obtain ⟨c2, hc2, h2⟩ := nodePathsList_head rest p hq
         rw [h1] at h2
         have hcc : c.name = c2.name := by injection h2
         exact hn1 (hcc ▸ List.mem_map_of_mem TreeNode.name hc2)

/-- Folding dict insertion over rows with fresh, pairwise distinct keys just
appends the rows in order. -/
theorem foldl_dictInsert_eq : ∀ (d acc : List (List String × String)),
  (d.map Prod.fst).Nodup → (∀ k ∈ d.map Prod.fst, k ∉ acc.map Prod.fst) →
  d.foldl dictInsert acc = acc ++ d := by
 intro d
 induction d with
 | nil =>
   intro acc _ _
   simp
 | cons kv rest ih =>
   intro acc hnd hfresh
   rw [List.map_cons] at hnd hfresh
   have hk : kv.1 ∉ acc.map Prod.fst := hfresh kv.1 (List.mem_cons_self _ _)
   have hins : dictInsert acc kv = acc ++ [kv] := by
     unfold dictInsert
     have : acc.any (fun e => e.1 = kv.1) = false := by
       rw [List.any_eq_false]
       intro e he
       simp only [decide_eq_true_eq]
       intro heq
       exact hk (heq ▸ List.mem_map_of_mem Prod.fst he)
     rw [this]
     simp
   rw [List.foldl_cons, hins, ih (acc ++ [kv]) (List.Nodup.of_cons hnd) ?_]
   · simp
   · intro k hkm
     rw [List.map_append]
     intro hmem
     rcases List.mem_append.mp hmem with h | h
     · exact hfresh k (List.mem_cons_of_mem _ hkm) h
     · have : k = kv.1 := by simpa using h
       rw [List.nodup_cons] at hnd
       exact hnd.1 (this ▸ hkm)

/-- Serialized row list of a tree: one row per node in pre-order, keyed by
the path components, valued by the node's name (the last component). -/
def pathEntries (t : TreeNode) : List (List String × String) :=
 (nodePaths t).map (fun p => (p, p.getLastD ""))

/-- Serialized row list of a forest. -/
def forestEntries (cs : List TreeNode) : List (List String × String) :=
 (nodePathsList cs).map (fun p => (p, p.getLastD ""))

/-- With distinct sibling names the exported dict is exactly the pre-order
row list: no key collision ever merges or overwrites a row. -/
theorem tree_to_dict_eq_entries (t : TreeNode) (h : sibNodup t = true) :
  tree_to_dict t = pathEntries t := by
 rw [tree_to_dict]
 have : ((nodePaths t).map (fun p => (p, p.getLastD ""))).map Prod.fst = nodePaths t := by
   rw [List.map_map]
   have hfun : (Prod.fst ∘ fun p : List String => (p, p.getLastD "")) = fun p => p := by
     funext p
     rfl
   rw [hfun]
   exact List.map_id' _
 rw [show ((nodePaths t).map (fun p => (p, p.getLastD ""))).foldl dictInsert [] = [] ++ (nodePaths t).map (fun p => (p, p.getLastD "")) from
   foldl_dictInsert_eq _ [] (by rw [this]; exact (nodePaths_nodup_aux (sizeOf t)).1 t le_rfl h) (by simp)]
 rw [List.nil_append]
 rfl

/-- Setting the name attribute sets the name and nothing else. -/
theorem setNameAttr_name (t : TreeNode) (v : String) : (setNameAttr t v).name = v := by
 obtain ⟨n, sz, kd, cs⟩ := t
 rw [setNameAttr]
 rfl

/-- Walking a nonempty remainder of a path never renames the node it starts
from. -/
theorem addPathGo_name (parts : List String) (t : TreeNode) (v : String) (h : parts ≠ []) :
  (addPathGo t parts v).name = t.name := by
 obtain ⟨c, rest⟩ := List.exists_cons_of_ne_nil h
 obtain ⟨hr, rfl⟩ := rest
 obtain ⟨n, sz, kd, cs⟩ := t
 rw [addPathGo]
 split <;> rfl

/-- The fold of add_path_to_tree walks over a row list. -/
def foldGo (es : List (List String × String)) (u : TreeNode) : TreeNode :=
 es.foldl (fun acc kv => addPathGo acc kv.1 kv.2) u

/-- Descending into a matching last child when every earlier sibling has a
different name reaches exactly that last child. -/
theorem addPathList_last (ws : List TreeNode) (w : TreeNode) (nm : String) (key : List String) (v : String)
  (hws : ∀ x ∈ ws, x.name ≠ nm) (hw : w.name = nm) :
  addPathList (ws ++ [w]) nm key v = ws ++ [addPathGo w key v] := by
 induction ws with
 | nil =>
   rw [List.nil_append, addPathList]
   rw [if_pos hw]
   rfl
 | cons x ws ih =>
   rw [List.cons_append, addPathList]
   rw [if_neg (hws x (List.mem_cons_self x ws))]
   rw [ih (fun y hy => hws y (List.mem_cons_of_mem x hy))]
   rfl

/-- Inserting rows all prefixed by the name of the last child edits exactly
that last child, leaving the node and its earlier children unchanged. -/
theorem foldGo_mapped : ∀ (es : List (List String × String)) (n : String) (sz : Option Nat)
  (kd : Option NKind) (ws : List TreeNode) (w : TreeNode) (nm : String),
  w.name = nm → (∀ x ∈ ws, x.name ≠ nm) → (∀ kv ∈ es, kv.1 ≠ []) →
  foldGo (es.map (fun kv => (nm :: kv.1, kv.2))) (.mk n sz kd (ws ++ [w])) = .mk n sz kd (ws ++ [foldGo es w]) := by
 intro es
 induction es with
 | nil =>
   intro n sz kd ws w nm _ _ _
   rfl
 | cons kv rest ih =>
   intro n sz kd ws w nm hw hws hkeys
   have hany : (ws ++ [w]).any (fun ch => ch.name = nm) = true := by
     rw [List.any_eq_true]
     exact ⟨w, by simp, by simpa using hw⟩
   have hstep : addPathGo (.mk n sz kd (ws ++ [w])) (nm :: kv.1) kv.2 = .mk n sz kd (ws ++ [addPathGo w kv.1 kv.2]) := by
     rw [addPathGo, if_pos hany, addPathList_last ws w nm kv.1 kv.2 hws hw]
   rw [List.map_cons]
   rw [show foldGo ((nm :: kv.1, kv.2) :: rest.map (fun kv => (nm :: kv.1, kv.2))) (.mk n sz kd (ws ++ [w]))
       = foldGo (rest.map (fun kv => (nm :: kv.1, kv.2))) (addPathGo (.mk n sz kd (ws ++ [w])) (nm :: kv.1) kv.2) from rfl]
   rw [hstep]
   have hwname : (addPathGo w kv.1 kv.2).name = nm := by
     rw [addPathGo_name kv.1 w kv.2 (hkeys kv (List.mem_cons_self kv rest))]
     exact hw
   rw [ih n sz kd ws (addPathGo w kv.1 kv.2) nm hwname hws (fun x hx => hkeys x (List.mem_cons_of_mem kv hx))]
   rfl

/-- getLastD ignores the default on a nonempty list. -/
theorem getLastD_cons_of_ne_nil (a : String) (p : List String) (h : p ≠ []) :
  (a :: p).getLastD "" = p.getLastD "" := by
 obtain ⟨x, xs, rfl⟩ := List.exists_cons_of_ne_nil h
 rw [List.getLastD_cons, List.getLastD_cons, List.getLastD_cons]

/-- Stripping attributes keeps the name. -/
theorem strip_name (c : TreeNode) : (strip c).name = c.name := by
 obtain ⟨n, sz, kd, cs⟩ := c
 rw [strip]
 rfl

/-- An exhausted path sets the name attribute. -/
theorem addPathGo_nil (t : TreeNode) (v : String) : addPathGo t [] v = setNameAttr t v := by
 rw [addPathGo]

/-- Row list of a tree, split into the root row and the shifted rows of the
children forest. -/
theorem pathEntries_cons (m : String) (sz : Option Nat) (kd : Option NKind) (cs : List TreeNode) :
  pathEntries (.mk m sz kd cs) = ([m], m) :: (forestEntries cs).map (fun kv => (m :: kv.1, kv.2)) := by
 rw [pathEntries, nodePaths, List.map_cons]
 congr 1
 rw [forestEntries, List.map_map, List.map_map]
 apply List.map_congr_left
 intro p hp
 have hne := nodePathsList_ne_nil cs p hp
 simp only [Function.comp]
 rw [getLastD_cons_of_ne_nil m p hne]

/-- foldGo distributes over row-list concatenation. -/
theorem foldGo_append (a b : List (List String × String)) (u : TreeNode) :
  foldGo (a ++ b) u = foldGo b (foldGo a u) := by
 rw [foldGo, foldGo, foldGo, List.foldl_append]

/-- Replaying the serialized rows of a tree (or forest) with distinct
sibling names into any node appends exactly the attribute-stripped tree
(or forest) to that node's children. -/
theorem roundtrip_build_aux : ∀ n : Nat,
  (∀ c : TreeNode, sizeOf c ≤ n → sibNodup c = true →
    ∀ (m : String) (sz : Option Nat) (kd : Option NKind) (ws : List TreeNode),
     (∀ x ∈ ws, x.name ≠ c.name) →
     foldGo (pathEntries c) (.mk m sz kd ws) = .mk m sz kd (ws ++ [strip c])) ∧
  (∀ fs : List TreeNode, sizeOf fs ≤ n → sibNodupList fs = true → nodupBy (fs.map TreeNode.name) = true →
    ∀ (m : String) (sz : Option Nat) (kd : Option NKind) (ws : List TreeNode),
     (∀ x ∈ ws, ∀ c ∈ fs, x.name ≠ c.name) →
     foldGo (forestEntries fs) (.mk m sz kd ws) = .mk m sz kd (ws ++ stripList fs)) := by
 intro n
 induction n using Nat.strong_induction_on with
 | _ n ih =>
   constructor
   · intro c hsz hsib m sz kd ws hws
     obtain ⟨cn, csz, ckd, cc⟩ := c
     have hlt : sizeOf cc < sizeOf (TreeNode.mk cn csz ckd cc) := by
       have := treeNode_children_sizeOf_lt (.mk cn csz ckd cc)
       simpa only [TreeNode.children] using this
     rw [sibNodup, Bool.and_eq_true] at hsib
     obtain ⟨hs1, hs2⟩ := hsib
     rw [pathEntries_cons]
     rw [show foldGo (([cn], cn) :: (forestEntries cc).map (fun kv => (cn :: kv.1, kv.2))) (.mk m sz kd ws)
        = foldGo ((forestEntries cc).map (fun kv => (cn :: kv.1, kv.2))) (addPathGo (.mk m sz kd ws) [cn] cn) from rfl]
     have hstep : addPathGo (.mk m sz kd ws) [cn] cn = .mk m sz kd (ws ++ [.mk cn none none []]) := by
       rw [addPathGo, if_neg]
       · rw [addPathGo_nil]
         rfl
       · intro hcon
         rw [List.any_eq_true] at hcon
         obtain ⟨x, hx, hxn⟩ := hcon
         exact hws x hx (by simpa using hxn)
     rw [hstep]
     rw [foldGo_mapped (forestEntries cc) m sz kd ws (.mk cn none none []) cn rfl hws
       (fun kv hkv => by
         obtain ⟨p, hp, rfl⟩ := List.mem_map.mp hkv
         exact nodePathsList_ne_nil cc p hp)]
     rw [(ih (sizeOf cc) (by omega)).2 cc le_rfl hs2 hs1 cn none none [] (by simp)]
     rw [strip, List.nil_append]
   · intro fs hsz hsib hnod m sz kd ws hws
     cases fs with
     | nil =>
       rw [show forestEntries [] = [] from by rw [forestEntries, nodePathsList]; rfl]
       rw [show stripList [] = [] from by rw [stripList]]
       rw [List.append_nil]
       rfl
     | cons c rest =>
       have hszc : sizeOf c < sizeOf (c :: rest) := by
         simp only [List.cons.sizeOf_spec]
         omega
       have hszr : sizeOf rest < sizeOf (c :: rest) := by
         simp only [List.cons.sizeOf_spec]
         omega
       rw [sibNodupList, Bool.and_eq_true] at hsib
       obtain ⟨hs1, hs2⟩ := hsib
       rw [List.map_cons] at hnod
       obtain ⟨hn1, hn2⟩ := (nodupBy_cons _ _).mp hnod
       have hfe : forestEntries (c :: rest) = pathEntries c ++ forestEntries rest := by
         rw [forestEntries, nodePathsList, List.map_append]
         rfl
       rw [hfe, foldGo_append]
       rw [(ih (sizeOf c) (by omega)).1 c le_rfl hs1 m sz kd ws
         (fun x hx => hws x hx c (List.mem_cons_self c rest))]
       rw [(ih (sizeOf rest) (by omega)).2 rest le_rfl hs2 hn2 m sz kd (ws ++ [strip c]) ?_]
       · rw [List.append_assoc]
         rw [show stripList (c :: rest) = strip c :: stripList rest from by rw [stripList]]
         rfl
       · intro x hx c2 hc2
         rcases List.mem_append.mp hx with h | h
         · exact hws x h c2 (List.mem_cons_of_mem c hc2)
         · have hxc : x = strip c := by simpa using h
           subst hxc
           rw [strip_name]
           intro he
           exact hn1 (he ▸ List.mem_map_of_mem TreeNode.name hc2)

/-- When every row's key starts at the current root name (and a bare root
row carries the root name as value), the fallible fold of add_path_to_tree
succeeds and equals the pure walk on the key tails. -/
theorem foldlM_addPath_eq : ∀ (es : List (List String × String)) (acc : TreeNode) (nm : String),
  acc.name = nm →
  (∀ kv ∈ es, kv.1.head? = some nm ∧ (kv.1.tail = [] → kv.2 = nm)) →
  es.foldlM (fun t kv => addPath t kv.1 kv.2) acc = some (foldGo (es.map (fun kv => (kv.1.tail, kv.2))) acc) := by
 intro es
 induction es with
 | nil =>
   intro acc nm _ _
   rfl
 | cons kv rest ih =>
   intro acc nm hname hrows
   obtain ⟨hhead, htail⟩ := hrows kv (List.mem_cons_self kv rest)
   obtain ⟨k, v⟩ := kv
   cases k with
   | nil => cases hhead
   | cons c tl =>
     have hc : c = nm := by
       injection hhead
     rw [List.foldlM_cons]
     rw [show addPath acc (c :: tl) v = some (addPathGo acc tl v) from by
       rw [addPath, if_pos (by rw [hname]; exact hc)]]
     rw [Option.bind_eq_bind, Option.some_bind]
     have hnewname : (addPathGo acc tl v).name = nm := by
       cases tl with
       | nil =>
         rw [addPathGo_nil, setNameAttr_name]
         exact htail rfl
       | cons a b =>
         rw [addPathGo_name (a :: b) acc v (by simp)]
         exact hname
     rw [ih (addPathGo acc tl v) nm hnewname (fun kv2 h2 => hrows kv2 (List.mem_cons_of_mem _ h2))]
     rfl

/-- C1 amended: for a built tree with pairwise distinct sibling names, the
round trip rebuilds exactly the name/children structure, with all size and
kind attributes dropped (the default export writes only names). -/
theorem roundTrip_strips (t : TreeNode) (h : sibNodup t = true) : roundTrip t = some (strip t) := by
 have h2 := h
 obtain ⟨n, sz, kd, cs⟩ := t
 rw [sibNodup, Bool.and_eq_true] at h2
 obtain ⟨hs1, hs2⟩ := h2
 rw [roundTrip, tree_to_dict_eq_entries _ h, pathEntries_cons]
 rw [show dict_to_tree (([n], n) :: (forestEntries cs).map (fun kv => (n :: kv.1, kv.2)))
    = (([n], n) :: (forestEntries cs).map (fun kv => (n :: kv.1, kv.2))).foldlM
        (fun t kv => addPath t kv.1 kv.2) (TreeNode.mk n none none []) from rfl]
 have hrows : ∀ kv ∈ ([n], n) :: (forestEntries cs).map (fun kv => (n :: kv.1, kv.2)),
     kv.1.head? = some n ∧ (kv.1.tail = [] → kv.2 = n) := by
   intro kv hkv
   rcases List.mem_cons.mp hkv with h1 | h1
   · subst h1
     exact ⟨rfl, fun _ => rfl⟩
   · obtain ⟨kv0, hkv0, rfl⟩ := List.mem_map.mp h1
     refine ⟨rfl, ?_⟩
     intro htl
     exfalso
     obtain ⟨p, hp, hpe⟩ := List.mem_map.mp hkv0
     have hpn := nodePathsList_ne_nil cs p hp
     apply hpn
     have : kv0.1 = p := by rw [← hpe]
     rw [← this]
     exact htl
 rw [foldlM_addPath_eq (([n], n) :: (forestEntries cs).map (fun kv => (n :: kv.1, kv.2)))
   (.mk n none none []) n rfl hrows]
 have hmaps : ((([n], n) : List String × String) :: (forestEntries cs).map (fun kv => (n :: kv.1, kv.2))).map
     (fun kv => (kv.1.tail, kv.2)) = (([] : List String), n) :: forestEntries cs := by
   rw [List.map_cons, List.map_map]
   congr 1
   exact List.map_id' _
 rw [hmaps]
 rw [show foldGo ((([] : List String), n) :: forestEntries cs) (.mk n none none [])
    = foldGo (forestEntries cs) (addPathGo (.mk n none none []) [] n) from rfl]
 rw [addPathGo_nil]
 rw [show setNameAttr (TreeNode.mk n none none []) n = .mk n none none [] from rfl]
 rw [(roundtrip_build_aux (sizeOf cs)).2 cs le_rfl hs2 hs1 n none none [] (by simp)]
 rw [strip, List.nil_append]

/-- Tree for the C1 counterexample and witness: root r of size 3 with one
file child a of size 10. -/
def cexTree : TreeNode :=
 .mk "r" (some 3) (some .dir) [.mk "a" (some 10) (some .file) []]

/-- C1 counterexample: importing the export of a tree whose root has size 3
yields a root with no size at all (and likewise no kind): the round trip is
not lossless for size and kind. -/
theorem roundTrip_drops_attributes :
  roundTrip cexTree = some (.mk "r" none none [.mk "a" none none []]) ∧
  (TreeNode.mk "r" none none [.mk "a" none none []]).size ≠ cexTree.size := by
 constructor
 · simp [cexTree, roundTrip, tree_to_dict, dict_to_tree, nodePaths, nodePathsList, dictInsert,
     addPath, addPathGo, addPathList, setNameAttr]
 · simp [cexTree]

/-- Witness for C1 amended: on the concrete two-node tree the round trip
returns exactly the attribute-stripped tree. -/
theorem roundTrip_strips_witness : roundTrip cexTree = some (strip cexTree) :=
 roundTrip_strips cexTree (by decide)
